import Mathlib

/-!
# Verification of `flow_diagram_generator.py`

A shallow embedding of the flow-diagram generator: the line parser
(`parse_flow_file`), the BFS level assignment and clustered grid layout
(`assign_clustered_grid_positions`), the drawio document builder
(`build_drawio_xml`, modelled at the level of the element tree), the render
verdict (`render_and_validate`, with the external drawio/OpenCV calls
abstracted as an outcome value), and the refinement loop
(`refine_until_clean`).

Python `dict`s are modelled as insertion-ordered association lists, Python
`str` as `String` (ASCII fragment: the `\w` character class and whitespace
stripping are modelled over the ASCII characters the inputs use), and Python
`int` as `Int`.
-/

namespace FlowDiagram

/-- An edge record as produced by `parse_flow_file`:
`{'src': ..., 'tgt': ..., 'branch': ...}` where `branch` is the optional
bracketed label (`None` becomes `none`). -/
structure Edge where
  src : String
  tgt : String
  branch : Option String
deriving DecidableEq

/-- Python dict assignment `d[k] = v` on an insertion-ordered association
list: an existing key keeps its position and gets the new value, a new key is
appended at the end. -/
def dictInsert {α : Type} (d : List (String × α)) (k : String) (v : α) :
    List (String × α) :=
  if d.any (fun p => p.1 == k) then d.map (fun p => if p.1 == k then (k, v) else p)
  else d ++ [(k, v)]

/-- `level_map.get(k, -1)`: the stored level of `k`, or `-1` when absent. -/
def lookupLevel (lm : List (String × Int)) (k : String) : Int :=
  match lm.find? (fun p => p.1 == k) with
  | some p => p.2
  | none => -1

/-- `level_map.get(k)` as an option (used to state properties). -/
def levelFind (lm : List (String × Int)) (k : String) : Option Int :=
  (lm.find? (fun p => p.1 == k)).map (fun p => p.2)

/-- The sources of all edges targeting `n`: the iteration underlying
`parents[n]` (built at lines 39-40 of the source). `max` over this list
equals `max` over the Python set of parents. -/
def parentsList (edges : List Edge) (n : String) : List String :=
  (edges.filter (fun e => e.tgt == n)).map (fun e => e.src)

/-- The successors enqueued when `n` is dequeued (lines 49-51): targets of
edges with source `n` that are not yet visited, in edge-list order.
`visited1` is the visited set after `visited.add(node)` has run. -/
def appendsOf (edges : List Edge) (n : String) (visited1 : List String) :
    List String :=
  (edges.filter (fun e => e.src == n && !(visited1.contains e.tgt))).map
    (fun e => e.tgt)

/-- First component of the termination measure for the BFS loop: the number
of ids that can still be visited (queue members and edge targets not yet
visited). -/
def bfsMeasure1 (edges : List Edge) (queue visited : List String) : Nat :=
  (((queue ++ edges.map (fun e => e.tgt)).toFinset) \ visited.toFinset).card

/-- Second component of the termination measure: the number of
already-visited entries in the queue. -/
def bfsMeasure2 (queue visited : List String) : Nat :=
  (queue.filter (fun x => visited.contains x)).length

/-- The BFS traversal of `assign_clustered_grid_positions` (lines 44-51 of
the source): dequeue a node, mark it visited, assign
`max(level of parents, default -1) + 1`, and enqueue its unvisited
successors. The queue may hold duplicates, exactly as in the Python code. -/
def bfs (edges : List Edge) (queue visited : List String)
    (lm : List (String × Int)) : List (String × Int) :=
  match queue with
  | [] => lm
  | n :: rest =>
    let visited1 := n :: visited
    let lvl := (parentsList edges n).foldl
      (fun acc p => max acc (lookupLevel lm p)) (-1) + 1
    let lm1 := dictInsert lm n lvl
    bfs edges (rest ++ appendsOf edges n visited1) visited1 lm1
termination_by (bfsMeasure1 edges queue visited, bfsMeasure2 queue visited)
decreasing_by
  -- a node not yet visited shrinks the set of visitable ids; an already
  -- visited node leaves that set alone and removes one visited queue entry
  have cif : ∀ (l : List String) (x : String), l.contains x = true ↔ x ∈ l :=
    fun l x => List.elem_iff
  have cff : ∀ (l : List String) (x : String), l.contains x = false ↔ x ∉ l := by
    intro l x
    rw [Bool.eq_false_iff]
    exact not_congr (cif l x)
  have aps : ∀ x ∈ appendsOf edges n (n :: visited),
      x ∈ edges.map (fun e => e.tgt) ∧ x ∉ (n :: visited) := by
    intro x hx
    simp only [appendsOf, List.mem_map, List.mem_filter, Bool.and_eq_true,
      beq_iff_eq, Bool.not_eq_true'] at hx
    obtain ⟨e, ⟨he, _, htgt⟩, rfl⟩ := hx
    exact ⟨List.mem_map_of_mem _ he, (cff _ _).mp htgt⟩
  by_cases hn : n ∈ visited
  · have h1 : bfsMeasure1 edges (rest ++ appendsOf edges n (n :: visited)) (n :: visited) ≤
        bfsMeasure1 edges (n :: rest) visited := by
      apply Finset.card_le_card
      intro x hx
      simp only [bfsMeasure1, Finset.mem_sdiff, List.mem_toFinset, List.mem_append,
        List.mem_cons] at hx ⊢
      obtain ⟨hmem, hnv⟩ := hx
      refine ⟨?_, fun hv => hnv (Or.inr hv)⟩
      rcases hmem with (h | h) | h
      · exact Or.inl (Or.inr h)
      · exact Or.inr (aps _ h).1
      · exact Or.inr h
    have h2 : bfsMeasure2 (rest ++ appendsOf edges n (n :: visited)) (n :: visited) <
        bfsMeasure2 (n :: rest) visited := by
      have happ : (appendsOf edges n (n :: visited)).filter
          (fun x => (n :: visited).contains x) = [] := by
        rw [List.filter_eq_nil_iff]
        intro a ha
        exact fun htr => (aps a ha).2 ((cif _ _).mp htr)
      have hrest : rest.filter (fun x => (n :: visited).contains x) =
          rest.filter (fun x => visited.contains x) := by
        apply List.filter_congr
        intro x _
        cases hc : visited.contains x
        · have hx1 : x ∉ visited := (cff _ _).mp hc
          apply (cff _ _).mpr
          intro hm
          rcases List.mem_cons.mp hm with h | h
          · exact hx1 (h ▸ hn)
          · exact hx1 h
        · exact (cif _ _).mpr (List.mem_cons_of_mem _ ((cif _ _).mp hc))
      simp only [bfsMeasure2, List.filter_append, happ, List.append_nil, hrest,
        List.filter_cons]
      have hcn : (visited.contains n) = true := (cif _ _).mpr hn
      simp only [hcn, if_pos, List.length_cons]
      exact Nat.lt_succ_self _
    rcases lt_or_eq_of_le h1 with hlt | heq
    · exact Prod.Lex.left _ _ hlt
    · rw [heq]; exact Prod.Lex.right _ h2
  · apply Prod.Lex.left
    have hmem : n ∈ ((n :: rest ++ edges.map (fun e => e.tgt)).toFinset) \ visited.toFinset := by
      simp [List.mem_toFinset, hn]
    calc bfsMeasure1 edges (rest ++ appendsOf edges n (n :: visited)) (n :: visited)
        ≤ ((((n :: rest ++ edges.map (fun e => e.tgt)).toFinset) \ visited.toFinset).erase n).card := by
          apply Finset.card_le_card
          intro x hx
          simp only [bfsMeasure1, Finset.mem_sdiff, Finset.mem_erase, List.mem_toFinset,
            List.mem_append, List.mem_cons] at hx ⊢
          obtain ⟨hmem, hnv⟩ := hx
          have hxn : ¬ x = n := fun h => hnv (by simp [h])
          have hxv : x ∉ visited := fun h => hnv (by simp [h])
          refine ⟨hxn, ?_, hxv⟩
          rcases hmem with (h | h) | h
          · exact Or.inl (Or.inr h)
          · exact Or.inr (aps _ h).1
          · exact Or.inr h
      _ < bfsMeasure1 edges (n :: rest) visited := by
          exact Finset.card_erase_lt_of_mem hmem

/-- Lines 37-51 of the source: the level map produced by the BFS seeded with
the nodes that are not the target of any edge (`n not in parents`), in node
insertion order. -/
def levelMapOf (nodes : List (String × String)) (edges : List Edge) :
    List (String × Int) :=
  bfs edges
    ((nodes.map (fun p => p.1)).filter (fun n => !(edges.any (fun e => e.tgt == n))))
    [] []

/-- Python string comparison (`<` on `str`): lexicographic on code points. -/
def charListLt : List Char → List Char → Bool
  | [], [] => false
  | [], _ :: _ => true
  | _ :: _, [] => false
  | a :: as, b :: bs => if a < b then true else if a = b then charListLt as bs else false

def insertSortedStr (x : String) : List String → List String
  | [] => [x]
  | y :: ys => if charListLt x.data y.data then x :: y :: ys else y :: insertSortedStr x ys

/-- `sorted` on a list of (distinct) strings. -/
def sortStrs (l : List String) : List String := l.foldr insertSortedStr []

def insertSortedInt (x : Int) : List Int → List Int
  | [] => [x]
  | y :: ys => if x ≤ y then x :: y :: ys else y :: insertSortedInt x ys

/-- `sorted` on a list of (distinct) integers. -/
def sortInts (l : List Int) : List Int := l.foldr insertSortedInt []

/-- The row of a level: the nodes mapped to `lvl`, sorted
(`sorted(row_nodes)` at line 59; grouping order is irrelevant after
sorting because each node occurs once in the level map). -/
def rowOf (lm : List (String × Int)) (lvl : Int) : List String :=
  sortStrs ((lm.filter (fun p => p.2 == lvl)).map (fun p => p.1))

/-- Lines 53-62 of the source: iterate the occupied levels in ascending
order and place the i-th node of each sorted row at
`(i * cell_width + 60, level * cell_height + 40)`. -/
def positionsOfLevels (cw ch : Int) (lm : List (String × Int)) :
    List (String × (Int × Int)) :=
  (sortInts ((lm.map (fun p => p.2)).dedup)).flatMap (fun lvl =>
    (rowOf lm lvl).enum.map (fun q =>
      (q.2, ((q.1 : Int) * cw + 60, lvl * ch + 40))))

/-- Lines 64-66 of the source: every node still missing a position is
appended at `(60, (len(positions) + 1) * cell_height + 40)`, where
`len(positions)` counts the entries already present (and grows as fallback
nodes are added). -/
def addFallback (ch : Int) (ns : List String)
    (pos : List (String × (Int × Int))) : List (String × (Int × Int)) :=
  ns.foldl (fun acc n =>
    if acc.any (fun p => p.1 == n) then acc
    else acc ++ [(n, (60, ((acc.length : Int) + 1) * ch + 40))]) pos

/-- `assign_clustered_grid_positions` (lines 36-68 of the source), with the
instance fields `cell_width`/`cell_height` passed explicitly. -/
def assign_clustered_grid_positions (cw ch : Int)
    (nodes : List (String × String)) (edges : List Edge) :
    List (String × (Int × Int)) :=
  addFallback ch (nodes.map (fun p => p.1))
    (positionsOfLevels cw ch (levelMapOf nodes edges))

/-! ## The parser (`parse_flow_file`, lines 18-34 of the source) -/

/-- The whitespace characters removed by Python `str.strip()`
(ASCII fragment). -/
def pyIsSpace (c : Char) : Bool :=
  c = ' ' || c = '\t' || c = '\n' || c = '\r' || c = '\x0b' || c = '\x0c'

/-- Python `str.strip()` on the character list. -/
def trimChars (cs : List Char) : List Char :=
  ((cs.dropWhile pyIsSpace).reverse.dropWhile pyIsSpace).reverse

/-- Python `line.split(';')`. -/
def splitSemi : List Char → List (List Char)
  | [] => [[]]
  | c :: rest =>
    if c = ';' then [] :: splitSemi rest
    else
      match splitSemi rest with
      | [] => [[c]]
      | p :: ps => (c :: p) :: ps

/-- The `\w` character class of the edge regex (ASCII fragment, as used by
the inputs: letters, digits and underscore). -/
def isWordChar (c : Char) : Bool :=
  ('a' ≤ c && c ≤ 'z') || ('A' ≤ c && c ≤ 'Z') || ('0' ≤ c && c ≤ '9') || c = '_'

/-- After a candidate closing bracket: match ` *-> *(\w+)` and return the
target-id characters. The greedy space runs are equivalent to backtracking
because a space can never begin `->` or a word character. -/
def tryArrowTgt (cs : List Char) : Option (List Char) :=
  match cs.dropWhile (fun c => c = ' ') with
  | '-' :: '>' :: cs3 =>
    if ((cs3.dropWhile (fun c => c = ' ')).takeWhile isWordChar).isEmpty then none
    else some ((cs3.dropWhile (fun c => c = ' ')).takeWhile isWordChar)
  | _ => none

/-- The lazy `(.*?)\]` of the edge regex: try each closing bracket from the
left; on failure of the continuation the bracket becomes part of the label
and scanning continues. Returns (label characters, target characters). -/
def scanBracket : List Char → List Char → Option (List Char × List Char)
  | _, [] => none
  | acc, c :: rest =>
    if c = ']' then
      match tryArrowTgt rest with
      | some w => some (acc.reverse, w)
      | none => scanBracket (c :: acc) rest
    else scanBracket (c :: acc) rest

/-- `re.match(r"(?:\[(.*?)\] *-> *)?(\w+)", part)` (line 29 of the source):
either a bracketed branch label followed by an arrow and a target id, or a
bare target id; `none` when the part matches neither. The target id is the
maximal word-character run, i.e. it is truncated at the first non-word
character. -/
def matchEdgePart (s : String) : Option (Option String × String) :=
  match (match s.data with
    | '[' :: rest => scanBracket [] rest
    | _ => none : Option (List Char × List Char)) with
  | some q => some (some (String.mk q.1), String.mk q.2)
  | none =>
    if (s.data.takeWhile isWordChar).isEmpty then none
    else some (none, String.mk (s.data.takeWhile isWordChar))

/-- The triple returned by `parse_flow_file`: the node dict, the edge list
and the `children` adjacency dict. -/
structure ParseResult where
  nodes : List (String × String)
  edges : List Edge
  children : List (String × List String)
deriving DecidableEq

/-- `children[k].append(v)` on a `defaultdict(list)`. -/
def childAppend (d : List (String × List String)) (k : String) (v : String) :
    List (String × List String) :=
  if d.any (fun p => p.1 == k) then
    d.map (fun p => if p.1 == k then (p.1, p.2 ++ [v]) else p)
  else d ++ [(k, [v])]

/-- One iteration of the line loop of `parse_flow_file` (lines 21-33).
Returns `none` when the record has fewer than two non-empty fields
(`parts[0]`/`parts[1]` raise `IndexError` in the source). -/
def parseLine (st : ParseResult) (line : String) : Option ParseResult :=
  let l := trimChars line.data
  if l = [] || l.head? = some '#' then some st
  else
    match ((splitSemi l).map trimChars).filter (fun p => p ≠ []) with
    | nodeId :: desc :: rest =>
      let nid := String.mk nodeId
      let newEdges := rest.filterMap (fun p =>
        (matchEdgePart (String.mk p)).map (fun q => Edge.mk nid q.2 q.1))
      some { nodes := dictInsert st.nodes nid (String.mk desc),
             edges := st.edges ++ newEdges,
             children := newEdges.foldl (fun d e => childAppend d nid e.tgt) st.children }
    | _ => none

/-- `parse_flow_file` (lines 18-34 of the source), with the file contents
given as the list of its lines. -/
def parse_flow_file (lines : List String) : Option ParseResult :=
  lines.foldlM parseLine { nodes := [], edges := [], children := [] }

/-! ## The document builder (`build_drawio_xml`, lines 70-120 of the source)

Modelled at the level of the element tree: the box `mxCell`s (with their id,
label, style and geometry) and the connector `mxCell`s (with their id,
source, target and optional label child). The XML serialization and pretty
printing carry no further structure. -/

structure MxBox where
  id : String
  value : String
  style : String
  x : Int
  y : Int
deriving DecidableEq

structure MxConnector where
  id : String
  source : String
  target : String
  label : Option String
deriving DecidableEq

structure DrawioDoc where
  boxes : List MxBox
  conns : List MxConnector
deriving DecidableEq

/-- `positions[k]` as an option (the source raises `KeyError` when absent). -/
def posFind (pos : List (String × (Int × Int))) (k : String) : Option (Int × Int) :=
  (pos.find? (fun p => p.1 == k)).map (fun p => p.2)

/-- Line 80 of the source: `"rhombus" if nid.startswith("D") else "rounded=1"`,
followed by the common style suffix. -/
def styleOf (nid : String) : String :=
  (if nid.data.head? = some 'D' then "rhombus" else "rounded=1") ++ ";whiteSpace=wrap;html=1;"

/-- The box cells, one per node dict entry in order (lines 78-90). `none`
when a node has no position (a `KeyError` in the source). -/
def boxesOf (positions : List (String × (Int × Int))) :
    List (String × String) → Option (List MxBox)
  | [] => some []
  | (nid, desc) :: rest =>
    match posFind positions nid with
    | none => none
    | some xy =>
      match boxesOf positions rest with
      | none => none
      | some bs => some (MxBox.mk nid desc (styleOf nid) xy.1 xy.2 :: bs)

/-- Line 104: a label child is emitted only when `edge['branch']` is truthy
(not `None` and not the empty string). -/
def labelOf (branch : Option String) : Option String :=
  match branch with
  | some b => if b = "" then none else some b
  | none => none

/-- The connector cells `e1, e2, ...` in edge-list order (lines 92-114). -/
def connsOf : Nat → List Edge → List MxConnector
  | _, [] => []
  | i, e :: es =>
    MxConnector.mk (String.append "e" (Nat.repr i)) e.src e.tgt (labelOf e.branch) ::
      connsOf (i + 1) es

/-- `build_drawio_xml` (lines 70-120 of the source), as the element tree it
serializes. -/
def build_drawio_xml (nodes : List (String × String)) (edges : List Edge)
    (positions : List (String × (Int × Int))) : Option DrawioDoc :=
  (boxesOf positions nodes).map (fun bs => DrawioDoc.mk bs (connsOf 1 edges))

/-! ## The renderer and the refinement loop (lines 122-168 of the source) -/

/-- The outcome of one external render invocation, abstracting the drawio
subprocess and the OpenCV line detection of `render_and_validate`:
the subprocess raises `FileNotFoundError` (tool missing), raises
`CalledProcessError` (tool ran and failed), or succeeds and `HoughLinesP`
returns `None` or a line count. -/
inductive RenderOutcome where
  | calledProcessError : RenderOutcome
  | fileNotFound : RenderOutcome
  | rendered : Option Nat → RenderOutcome
deriving DecidableEq

/-- The return value of `render_and_validate` (lines 122-153 of the source):
`False` on either exception, otherwise `lines is None or len(lines) < 5`. -/
def render_and_validate : RenderOutcome → Bool
  | .calledProcessError => false
  | .fileNotFound => false
  | .rendered lines =>
    match lines with
    | none => true
    | some k => decide (k < 5)

/-- The observable result of `refine_until_clean`: the final spacing fields,
the number of render invocations, the spacing and verdict of each attempt in
order, whether the success message was printed, and the Python return value
(`None` on every path, modelled as `Unit`). -/
structure RunResult where
  cw : Int
  ch : Int
  renders : Nat
  trace : List (Int × Int × Bool)
  printedClean : Bool
  retVal : Unit
deriving DecidableEq

/-- The attempt loop of `refine_until_clean` (lines 156-168): on a clean
verdict print the success message and return; otherwise grow the spacing by
40 and 30 and continue with the next attempt. `outs attempt` is the render
outcome the external world produces at the given attempt index. The
parse/layout/emit steps of each attempt are pure functions of the unchanged
input and the current spacing and do not influence the control flow. -/
def refineGo (outs : Nat → RenderOutcome) :
    Nat → Nat → Int → Int → List (Int × Int × Bool) → RunResult
  | _, 0, cw, ch, tr =>
    { cw := cw, ch := ch, renders := tr.length, trace := tr,
      printedClean := false, retVal := () }
  | attempt, r + 1, cw, ch, tr =>
    let verdict := render_and_validate (outs attempt)
    let tr1 := tr ++ [(cw, ch, verdict)]
    if verdict then
      { cw := cw, ch := ch, renders := tr1.length, trace := tr1,
        printedClean := true, retVal := () }
    else refineGo outs (attempt + 1) r (cw + 40) (ch + 30) tr1

/-- `refine_until_clean(max_attempts)` started from the given spacing (the
constructor defaults are 250 and 120). -/
def refine_until_clean (cw ch : Int) (maxAttempts : Nat)
    (outs : Nat → RenderOutcome) : RunResult :=
  refineGo outs 0 maxAttempts cw ch []


/-! ## Property-side definitions used to state the claims -/

/-- An edge target as the parser produces it: a nonempty run of word
characters. -/
def edgeTgtOk (e : Edge) : Prop :=
  e.tgt ≠ "" ∧ e.tgt.data.all isWordChar = true

/-- The trace the attempt loop produces from a given attempt index and
spacing: one entry per attempt, stopping after the first clean verdict or
when the remaining budget runs out. -/
def traceFrom (outs : Nat → RenderOutcome) : Nat → Int → Int → Nat →
    List (Int × Int × Bool)
  | _, _, _, 0 => []
  | att, cw, ch, r + 1 =>
    let v := render_and_validate (outs att)
    (cw, ch, v) :: (if v then [] else traceFrom outs (att + 1) (cw + 40) (ch + 30) r)

/-- The fallback entries appended for the nodes missing from `pos`, with the
running count of already-placed entries. -/
def fallbackRows (ch : Int) : Int → List String → List (String × (Int × Int))
  | _, [] => []
  | base, n :: ns =>
    (n, (60, (base + 1) * ch + 40)) :: fallbackRows ch (base + 1) ns

/-- A directed path of length at least one and at most `fuel` from `a` to
`b` along the edge list. -/
def reachesIn (edges : List Edge) : Nat → String → String → Bool
  | 0, _, _ => false
  | fuel + 1, a, b =>
    edges.any (fun e => e.src == a && (e.tgt == b || reachesIn edges fuel e.tgt b))

/-- Acyclicity of an edge list, as the claims use the word: no id lies on a
directed cycle. A shortest cycle repeats no edge, so paths of length at most
`edges.length + 1` suffice. -/
def isAcyclic (edges : List Edge) : Bool :=
  ((edges.map (fun e => e.src)) ++ (edges.map (fun e => e.tgt))).all
    (fun a => !(reachesIn edges (edges.length + 1) a a))

/-! ## Supporting lemmas: association-list dictionaries -/

lemma contains_iff (l : List String) (x : String) : l.contains x = true ↔ x ∈ l :=
  List.elem_iff

lemma contains_false_iff (l : List String) (x : String) :
    l.contains x = false ↔ x ∉ l := by
  rw [Bool.eq_false_iff]
  exact not_congr (contains_iff l x)

lemma appendsOf_spec {edges : List Edge} {n : String} {v1 : List String}
    {x : String} (hx : x ∈ appendsOf edges n v1) :
    x ∈ edges.map (fun e => e.tgt) ∧ x ∉ v1 := by
  simp only [appendsOf, List.mem_map, List.mem_filter, Bool.and_eq_true,
    beq_iff_eq, Bool.not_eq_true'] at hx
  obtain ⟨e, ⟨he, _, htgt⟩, rfl⟩ := hx
  exact ⟨List.mem_map_of_mem _ he, (contains_false_iff _ _).mp htgt⟩


lemma any_key_iff {α : Type} (d : List (String × α)) (k : String) :
    d.any (fun p => p.1 == k) = true ↔ k ∈ d.map Prod.fst := by
  rw [List.any_eq_true, List.mem_map]
  constructor
  · rintro ⟨p, hp, hb⟩; exact ⟨p, hp, beq_iff_eq.mp hb⟩
  · rintro ⟨p, hp, hb⟩; exact ⟨p, hp, beq_iff_eq.mpr hb⟩

lemma dictInsert_of_not_mem {α : Type} {d : List (String × α)} {k : String}
    (h : k ∉ d.map Prod.fst) (v : α) : dictInsert d k v = d ++ [(k, v)] := by
  rw [dictInsert, if_neg]
  intro hc
  exact h ((any_key_iff d k).mp hc)

lemma find?_map_update {α : Type} (d : List (String × α)) (k : String) (v : α) :
    (d.map (fun p => if p.1 == k then (k, v) else p)).find? (fun p => p.1 == k) =
      if d.any (fun p => p.1 == k) then some (k, v) else none := by
  induction d with
  | nil => rfl
  | cons p d ih =>
    rw [List.map_cons, List.any_cons]
    by_cases hp : p.1 = k
    · have hb : (p.1 == k) = true := beq_iff_eq.mpr hp
      rw [if_pos hb, hb, Bool.true_or, if_pos rfl]
      exact List.find?_cons_of_pos _ (by simp)
    · have hb : (p.1 == k) = false := beq_eq_false_iff_ne.mpr hp
      rw [if_neg (by rw [hb]; exact Bool.false_ne_true), hb, Bool.false_or,
        List.find?_cons_of_neg _ (by rw [hb]; exact Bool.false_ne_true), ih]

lemma find?_map_update_other {α : Type} (d : List (String × α)) {k j : String}
    (h : j ≠ k) (v : α) :
    (d.map (fun p => if p.1 == k then (k, v) else p)).find? (fun p => p.1 == j) =
      d.find? (fun p => p.1 == j) := by
  induction d with
  | nil => rfl
  | cons p d ih =>
    rw [List.map_cons]
    by_cases hp : p.1 = k
    · have hb : (p.1 == k) = true := beq_iff_eq.mpr hp
      have hpj : (p.1 == j) = false := beq_eq_false_iff_ne.mpr (by
        rw [hp]; exact fun e => h e.symm)
      have hkj : ((k : String) == j) = false := beq_eq_false_iff_ne.mpr
        (fun e => h e.symm)
      rw [if_pos hb,
        List.find?_cons_of_neg _ (by simp only []; rw [hkj]; exact Bool.false_ne_true),
        List.find?_cons_of_neg _ (by rw [hpj]; exact Bool.false_ne_true), ih]
    · have hb : (p.1 == k) = false := beq_eq_false_iff_ne.mpr hp
      rw [if_neg (by rw [hb]; exact Bool.false_ne_true)]
      cases hj : (p.1 == j) with
      | true =>
        have h1 : List.find? (fun q => q.1 == j)
            (p :: d.map (fun q => if q.1 == k then (k, v) else q)) = some p :=
          List.find?_cons_of_pos _ hj
        have h2 : List.find? (fun q => q.1 == j) (p :: d) = some p :=
          List.find?_cons_of_pos _ hj
        rw [h1, h2]
      | false =>
        rw [List.find?_cons_of_neg _ (by rw [hj]; exact Bool.false_ne_true),
          List.find?_cons_of_neg _ (by rw [hj]; exact Bool.false_ne_true), ih]

lemma find?_dictInsert_self {α : Type} (d : List (String × α)) (k : String) (v : α) :
    (dictInsert d k v).find? (fun p => p.1 == k) = some (k, v) := by
  rw [dictInsert]
  by_cases h : d.any (fun p => p.1 == k) = true
  · rw [if_pos h, find?_map_update, if_pos h]
  · rw [if_neg h]
    have hnone : d.find? (fun p => p.1 == k) = none := by
      rw [List.find?_eq_none]
      intro p hp hb
      exact h (List.any_eq_true.mpr ⟨p, hp, hb⟩)
    rw [List.find?_append, hnone]
    simp

lemma find?_dictInsert_other {α : Type} (d : List (String × α)) {k j : String}
    (h : j ≠ k) (v : α) :
    (dictInsert d k v).find? (fun p => p.1 == j) = d.find? (fun p => p.1 == j) := by
  rw [dictInsert]
  by_cases hc : d.any (fun p => p.1 == k) = true
  · rw [if_pos hc, find?_map_update_other d h]
  · rw [if_neg hc, List.find?_append]
    have h1 : ([(k, v)].find? (fun p => p.1 == j)) = none := by
      have hkj : ((k : String) == j) = false := beq_eq_false_iff_ne.mpr
        (fun e => h e.symm)
      rw [List.find?_singleton, if_neg (by simp only []; rw [hkj]; exact Bool.false_ne_true)]
    rw [h1]
    cases d.find? (fun p => p.1 == j) <;> rfl

lemma levelFind_dictInsert_self (d : List (String × Int)) (k : String) (v : Int) :
    levelFind (dictInsert d k v) k = some v := by
  rw [levelFind, find?_dictInsert_self]
  rfl

lemma levelFind_dictInsert_other (d : List (String × Int)) {k j : String}
    (h : j ≠ k) (v : Int) :
    levelFind (dictInsert d k v) j = levelFind d j := by
  rw [levelFind, find?_dictInsert_other d h, levelFind]

lemma levelFind_eq_none {d : List (String × Int)} {k : String}
    (h : k ∉ d.map Prod.fst) : levelFind d k = none := by
  have hnone : d.find? (fun p => p.1 == k) = none := by
    rw [List.find?_eq_none]
    intro p hp hb
    exact h (List.mem_map.mpr ⟨p, hp, beq_iff_eq.mp hb⟩)
  rw [levelFind, hnone]
  rfl

lemma mem_of_levelFind_some {d : List (String × Int)} {k : String} {v : Int}
    (h : levelFind d k = some v) : (k, v) ∈ d := by
  rw [levelFind] at h
  cases hf : d.find? (fun p => p.1 == k) with
  | none => rw [hf] at h; cases h
  | some p =>
    rw [hf] at h
    have hk := List.find?_some hf
    have hk2 : p.1 = k := by simpa using hk
    have hm : p ∈ d := List.mem_of_find?_eq_some hf
    have hv : p.2 = v := by simpa using h
    have hpk : p = (k, v) := Prod.ext hk2 hv
    exact hpk ▸ hm

lemma levelFind_isSome_of_mem {d : List (String × Int)} {k : String} {v : Int}
    (h : (k, v) ∈ d) : (levelFind d k).isSome := by
  rw [levelFind]
  cases hf : d.find? (fun p => p.1 == k) with
  | some p => rfl
  | none =>
    rw [List.find?_eq_none] at hf
    exact absurd (by simp : ((k, v).1 == k) = true) (hf _ h)

lemma lookupLevel_eq_levelFind (d : List (String × Int)) (k : String) :
    lookupLevel d k = match levelFind d k with | some v => v | none => -1 := by
  rw [lookupLevel, levelFind]
  cases d.find? (fun p => p.1 == k) <;> rfl

lemma dictInsert_keys_nodup {α : Type} {d : List (String × α)}
    (h : (d.map Prod.fst).Nodup) (k : String) (v : α) :
    ((dictInsert d k v).map Prod.fst).Nodup := by
  rw [dictInsert]
  by_cases hc : d.any (fun p => p.1 == k) = true
  · rw [if_pos hc]
    have : (d.map (fun p => if p.1 == k then (k, v) else p)).map Prod.fst = d.map Prod.fst := by
      rw [List.map_map]
      apply List.map_congr_left
      intro p _
      by_cases hp : p.1 = k
      · have hb : (p.1 == k) = true := beq_iff_eq.mpr hp
        simp only [Function.comp_apply]
        rw [if_pos hb]
        exact hp.symm
      · have hb : (p.1 == k) = false := beq_eq_false_iff_ne.mpr hp
        simp only [Function.comp_apply]
        rw [if_neg (by rw [hb]; exact Bool.false_ne_true)]
    rw [this]; exact h
  · rw [if_neg hc, List.map_append]
    simp only [List.map_cons, List.map_nil]
    rw [List.nodup_append]
    refine ⟨h, List.nodup_singleton k, ?_⟩
    intro a ha hb
    have : a = k := by simpa using hb
    subst this
    exact hc ((any_key_iff d a).mpr ha)

/-! ## Supporting lemmas: the BFS loop -/

/-- The induction rule for the BFS loop: any property of
(queue, visited, level map) preserved by a dequeue step holds of the final
level map (with an empty queue and some final visited set). -/
lemma bfs_invariant (edges : List Edge)
    (P : List String → List String → List (String × Int) → Prop)
    (hstep : ∀ n rest visited lm, P (n :: rest) visited lm →
      P (rest ++ appendsOf edges n (n :: visited)) (n :: visited)
        (dictInsert lm n ((parentsList edges n).foldl
          (fun acc p => max acc (lookupLevel lm p)) (-1) + 1))) :
    ∀ queue visited lm, P queue visited lm →
      ∃ v2, P [] v2 (bfs edges queue visited lm) := by
  intro queue visited lm
  induction queue, visited, lm using bfs.induct edges with
  | case1 visited lm =>
    intro h
    rw [bfs]
    exact ⟨visited, h⟩
  | case2 visited lm n rest visited1 lvl lm1 ih =>
    intro h
    rw [bfs]
    exact ih (hstep n rest visited lm h)

lemma levelMapOf_keys_nodup (nodes : List (String × String)) (edges : List Edge) :
    ((levelMapOf nodes edges).map Prod.fst).Nodup := by
  have := bfs_invariant edges (fun _ _ lm => (lm.map Prod.fst).Nodup)
    (fun n rest visited lm h => dictInsert_keys_nodup h n _)
    ((nodes.map (fun p => p.1)).filter (fun n => !(edges.any (fun e => e.tgt == n))))
    [] [] List.nodup_nil
  obtain ⟨v2, hv⟩ := this
  exact hv

/-- A node of the input with no incoming edge is seeded into the queue,
computes `max([], default=-1) + 1 = 0` when dequeued, and no later step can
overwrite that entry. -/
lemma levelMapOf_root {nodes : List (String × String)} {edges : List Edge}
    {r : String} (hr : r ∈ nodes.map Prod.fst)
    (hroot : ∀ e ∈ edges, e.tgt ≠ r) :
    levelFind (levelMapOf nodes edges) r = some 0 := by
  have hpar : parentsList edges r = [] := by
    rw [parentsList, List.filter_eq_nil_iff.mpr, List.map_nil]
    intro e he hb
    exact hroot e he (beq_iff_eq.mp hb)
  have hstep : ∀ n rest visited lm,
      (r ∈ n :: rest ∨ levelFind lm r = some 0) →
      (r ∈ rest ++ appendsOf edges n (n :: visited) ∨
        levelFind (dictInsert lm n ((parentsList edges n).foldl
          (fun acc p => max acc (lookupLevel lm p)) (-1) + 1)) r = some 0) := by
    intro n rest visited lm h
    by_cases hrn : r = n
    · subst hrn
      refine Or.inr ?_
      rw [hpar]
      have h1 := levelFind_dictInsert_self lm r
        (List.foldl (fun acc p => max acc (lookupLevel lm p)) (-1) [] + 1)
      simpa using h1
    · rcases h with hq | hlm
      · rcases List.mem_cons.mp hq with he | he
        · exact absurd he hrn
        · exact Or.inl (List.mem_append_left _ he)
      · exact Or.inr ((levelFind_dictInsert_other lm hrn _).symm ▸ hlm)
  have hinit : r ∈ (nodes.map (fun p => p.1)).filter
      (fun n => !(edges.any (fun e => e.tgt == n))) := by
    rw [List.mem_filter]
    refine ⟨by simpa using hr, ?_⟩
    have hfalse : edges.any (fun e => e.tgt == r) = false := by
      rw [List.any_eq_false]
      intro e he hb
      exact hroot e he (beq_iff_eq.mp hb)
    rw [hfalse]
    rfl
  obtain ⟨v2, hfin⟩ := bfs_invariant edges
    (fun q _ lm => r ∈ q ∨ levelFind lm r = some 0) hstep _ [] []
    (Or.inl hinit)
  rcases hfin with hq | h0
  · exact absurd hq (List.not_mem_nil r)
  · exact h0

lemma mem_appendsOf {edges : List Edge} {n : String} {v1 : List String}
    {x : String} (hx : x ∈ appendsOf edges n v1) :
    ∃ e ∈ edges, e.src = n ∧ e.tgt = x ∧ x ∉ v1 := by
  simp only [appendsOf, List.mem_map, List.mem_filter, Bool.and_eq_true,
    beq_iff_eq, Bool.not_eq_true'] at hx
  obtain ⟨e, ⟨he, hsrc, htgt⟩, rfl⟩ := hx
  exact ⟨e, he, hsrc, rfl, (contains_false_iff _ _).mp htgt⟩

lemma filter_tgt_singleton {edges : List Edge} {e : Edge}
    (hforest : ∀ t : String, edges.countP (fun x => x.tgt == t) ≤ 1)
    (he : e ∈ edges) :
    edges.filter (fun x => x.tgt == e.tgt) = [e] := by
  have hmem : e ∈ edges.filter (fun x => x.tgt == e.tgt) :=
    List.mem_filter.mpr ⟨he, by simp⟩
  have hle := hforest e.tgt
  rw [List.countP_eq_length_filter] at hle
  rcases hf : edges.filter (fun x => x.tgt == e.tgt) with _ | ⟨a, _ | ⟨b, tl⟩⟩
  · rw [hf] at hmem
    exact absurd hmem (List.not_mem_nil e)
  · rw [hf] at hmem
    rw [hf]
    exact congrArg (fun z => [z]) (List.mem_singleton.mp hmem).symm
  · rw [hf] at hle
    simp at hle

lemma forest_unique {edges : List Edge} {e x : Edge}
    (hforest : ∀ t : String, edges.countP (fun y => y.tgt == t) ≤ 1)
    (he : e ∈ edges) (hx : x ∈ edges) (ht : x.tgt = e.tgt) : x = e := by
  have h1 : x ∈ edges.filter (fun y => y.tgt == e.tgt) :=
    List.mem_filter.mpr ⟨hx, by rw [ht]; simp⟩
  rw [filter_tgt_singleton hforest he] at h1
  exact List.mem_singleton.mp h1

lemma count_appendsOf_le (edges : List Edge) (n : String) (v1 : List String)
    (m : String) :
    (appendsOf edges n v1).count m ≤ edges.countP (fun e => e.tgt == m) := by
  rw [appendsOf]
  show ((edges.filter _).map (fun e => e.tgt)).countP (fun x => x == m) ≤ _
  rw [List.countP_map]
  have h1 : (edges.filter (fun e => e.src == n && !(v1.contains e.tgt))).countP
      ((fun x => x == m) ∘ (fun e => e.tgt)) =
      edges.countP (fun e =>
        ((fun x => x == m) ∘ (fun e => e.tgt)) e &&
          (fun e => e.src == n && !(v1.contains e.tgt)) e) :=
    List.countP_filter _ _ _
  rw [h1]
  apply List.countP_mono_left
  intro e _ hb
  simp only [Function.comp_apply, Bool.and_eq_true] at hb
  exact hb.1

lemma foldl_max_init (f : String → Int) (l : List String) (a : Int) :
    a ≤ l.foldl (fun acc p => max acc (f p)) a := by
  induction l generalizing a with
  | nil => exact le_refl a
  | cons x xs ih =>
    rw [List.foldl_cons]
    exact le_trans (le_max_left a (f x)) (ih (max a (f x)))

/-- In a graph where every node has at most one incoming edge occurrence,
each node is enqueued and dequeued at most once, its unique parent is
already leveled when it is enqueued, and therefore every leveled edge
target sits exactly one level below its (leveled) source. -/
lemma levelMapOf_forest {nodes : List (String × String)} {edges : List Edge}
    (hnd : (nodes.map Prod.fst).Nodup)
    (hforest : ∀ t : String, edges.countP (fun e => e.tgt == t) ≤ 1) :
    ∀ e ∈ edges, ∀ lv, levelFind (levelMapOf nodes edges) e.tgt = some lv →
      ∃ lu, levelFind (levelMapOf nodes edges) e.src = some lu ∧ lv = lu + 1 := by
  have hstep : ∀ n rest visited lm,
      ((∀ m : String, (n :: rest).count m + (if m ∈ visited then 1 else 0) ≤ 1) ∧
       (∀ p ∈ lm, p.1 ∈ visited) ∧
       (∀ p ∈ lm, (0 : Int) ≤ p.2) ∧
       (∀ v ∈ n :: rest, ∀ e ∈ edges, e.tgt = v → ∃ l, levelFind lm e.src = some l) ∧
       (∀ e ∈ edges, ∀ lv, levelFind lm e.tgt = some lv →
         ∃ lu, levelFind lm e.src = some lu ∧ lv = lu + 1)) →
      (let lm1 := dictInsert lm n ((parentsList edges n).foldl
          (fun acc p => max acc (lookupLevel lm p)) (-1) + 1)
       let q1 := rest ++ appendsOf edges n (n :: visited)
       (∀ m : String, q1.count m + (if m ∈ n :: visited then 1 else 0) ≤ 1) ∧
       (∀ p ∈ lm1, p.1 ∈ n :: visited) ∧
       (∀ p ∈ lm1, (0 : Int) ≤ p.2) ∧
       (∀ v ∈ q1, ∀ e ∈ edges, e.tgt = v → ∃ l, levelFind lm1 e.src = some l) ∧
       (∀ e ∈ edges, ∀ lv, levelFind lm1 e.tgt = some lv →
         ∃ lu, levelFind lm1 e.src = some lu ∧ lv = lu + 1)) := by
    intro n rest visited lm h
    obtain ⟨hA, hB, hD, hE, hF⟩ := h
    have hnvis : n ∉ visited := by
      have h1 := hA n
      rw [List.count_cons_self] at h1
      by_contra hv
      rw [if_pos hv] at h1
      omega
    have hnkeys : n ∉ lm.map Prod.fst := by
      intro hk
      rw [List.mem_map] at hk
      obtain ⟨p, hp, hpk⟩ := hk
      exact hnvis (hpk ▸ hB p hp)
    have hlmn : levelFind lm n = none := levelFind_eq_none hnkeys
    refine ⟨?_, ?_, ?_, ?_, ?_⟩
    · -- each node queued at most once
      intro m
      rw [List.count_append]
      by_cases hm : m = n
      · subst hm
        have happ0 : (appendsOf edges m (m :: visited)).count m = 0 := by
          rw [List.count_eq_zero]
          intro hmem
          exact (appendsOf_spec hmem).2 (List.mem_cons_self m visited)
        have hr0 : rest.count m = 0 := by
          have h1 := hA m
          rw [List.count_cons_self] at h1
          omega
        rw [happ0, hr0, if_pos (List.mem_cons_self m visited)]
      · by_cases hma : m ∈ appendsOf edges n (n :: visited)
        · obtain ⟨e0, he0, hsrc0, htgt0, hnv0⟩ := mem_appendsOf hma
          have happ_le : (appendsOf edges n (n :: visited)).count m ≤ 1 :=
            le_trans (count_appendsOf_le edges n (n :: visited) m) (hforest m)
          have hr0 : rest.count m = 0 := by
            rw [List.count_eq_zero]
            intro hmr
            obtain ⟨l0, hl0⟩ := hE m (List.mem_cons_of_mem n hmr) e0 he0 htgt0
            rw [hsrc0, hlmn] at hl0
            cases hl0
          rw [hr0, if_neg hnv0]
          omega
        · have happ0 : (appendsOf edges n (n :: visited)).count m = 0 :=
            List.count_eq_zero.mpr hma
          have h1 := hA m
          rw [List.count_cons_of_ne (fun hc => hm hc) ] at h1
          rw [happ0]
          by_cases hmv : m ∈ visited
          · rw [if_pos (List.mem_cons_of_mem n hmv)]
            rw [if_pos hmv] at h1
            omega
          · rw [if_neg (fun hc => hmv (by
              rcases List.mem_cons.mp hc with h2 | h2
              · exact absurd h2 hm
              · exact h2))]
            rw [if_neg hmv] at h1
            omega
    · -- level map keys are visited
      intro p hp
      rw [dictInsert_of_not_mem hnkeys] at hp
      rcases List.mem_append.mp hp with h1 | h1
      · exact List.mem_cons_of_mem n (hB p h1)
      · rw [List.mem_singleton.mp h1]
        exact List.mem_cons_self n visited
    · -- levels are nonnegative
      intro p hp
      rw [dictInsert_of_not_mem hnkeys] at hp
      rcases List.mem_append.mp hp with h1 | h1
      · exact hD p h1
      · rw [List.mem_singleton.mp h1]
        have := foldl_max_init (lookupLevel lm) (parentsList edges n) (-1)
        simp only []
        omega
    · -- queued targets have leveled parents
      intro v hv e2 he2 htgt2
      rcases List.mem_append.mp hv with hvr | hva
      · obtain ⟨l2, hl2⟩ := hE v (List.mem_cons_of_mem n hvr) e2 he2 htgt2
        by_cases hs : e2.src = n
        · rw [hs, hlmn] at hl2
          cases hl2
        · refine ⟨l2, ?_⟩
          rw [levelFind_dictInsert_other lm hs]
          exact hl2
      · obtain ⟨e0, he0, hsrc0, htgt0, hnv0⟩ := mem_appendsOf hva
        have he2e0 : e2 = e0 := forest_unique hforest he0 he2 (htgt2.trans htgt0.symm)
        refine ⟨(parentsList edges n).foldl
          (fun acc p => max acc (lookupLevel lm p)) (-1) + 1, ?_⟩
        rw [show e2.src = n from by rw [he2e0, hsrc0]]
        exact levelFind_dictInsert_self lm n _
    · -- leveled targets sit one level below their source
      intro e2 he2 lv2 hlv2
      by_cases htn : e2.tgt = n
      · have hself := levelFind_dictInsert_self lm n
          ((parentsList edges n).foldl (fun acc p => max acc (lookupLevel lm p)) (-1) + 1)
        rw [htn, hself] at hlv2
        have hlveq := Option.some.inj hlv2
        have hpar : parentsList edges n = [e2.src] := by
          have hft := filter_tgt_singleton hforest he2
          rw [htn] at hft
          rw [parentsList, hft]
          rfl
        obtain ⟨l0, hl0⟩ := hE n (List.mem_cons_self n rest) e2 he2 htn
        have hl0nn : (0 : Int) ≤ l0 := hD _ (mem_of_levelFind_some hl0)
        have hlook : lookupLevel lm e2.src = l0 := by
          rw [lookupLevel_eq_levelFind, hl0]
        have hsrcne : e2.src ≠ n := by
          intro hs
          rw [hs, hlmn] at hl0
          cases hl0
        refine ⟨l0, ?_, ?_⟩
        · rw [levelFind_dictInsert_other lm hsrcne, hl0]
        · rw [← hlveq, hpar, List.foldl_cons, List.foldl_nil, hlook,
            max_eq_right (by omega : (-1 : Int) ≤ l0)]
      · rw [levelFind_dictInsert_other lm htn] at hlv2
        obtain ⟨lu, hlu, heq⟩ := hF e2 he2 lv2 hlv2
        have hsrcne : e2.src ≠ n := by
          intro hs
          rw [hs, hlmn] at hlu
          cases hlu
        refine ⟨lu, ?_, heq⟩
        rw [levelFind_dictInsert_other lm hsrcne]
        exact hlu
  have hinit :
      (∀ m : String, (((nodes.map (fun p => p.1)).filter
          (fun a => !(edges.any (fun e => e.tgt == a)))).count m +
          (if m ∈ ([] : List String) then 1 else 0) ≤ 1)) ∧
      (∀ p ∈ ([] : List (String × Int)), p.1 ∈ ([] : List String)) ∧
      (∀ p ∈ ([] : List (String × Int)), (0 : Int) ≤ p.2) ∧
      (∀ v ∈ (nodes.map (fun p => p.1)).filter
          (fun a => !(edges.any (fun e => e.tgt == a))), ∀ e ∈ edges,
          e.tgt = v → ∃ l, levelFind ([] : List (String × Int)) e.src = some l) ∧
      (∀ e ∈ edges, ∀ lv, levelFind ([] : List (String × Int)) e.tgt = some lv →
        ∃ lu, levelFind ([] : List (String × Int)) e.src = some lu ∧ lv = lu + 1) := by
    refine ⟨?_, ?_, ?_, ?_, ?_⟩
    · intro m
      have hnd2 : (nodes.map (fun p => p.1)).Nodup := hnd
      have hnd3 : ((nodes.map (fun p => p.1)).filter
          (fun a => !(edges.any (fun e => e.tgt == a)))).Nodup := hnd2.filter _
      have := List.nodup_iff_count_le_one.mp hnd3 m
      rw [if_neg (List.not_mem_nil m)]
      omega
    · intro p hp
      exact absurd hp (List.not_mem_nil p)
    · intro p hp
      exact absurd hp (List.not_mem_nil p)
    · intro v hv e2 he2 htgt2
      have hcond := (List.mem_filter.mp hv).2
      rw [Bool.not_eq_true', List.any_eq_false] at hcond
      exact absurd (by rw [htgt2]; exact beq_self_eq_true v) (hcond e2 he2)
    · intro e2 _ lv2 hlv2
      cases hlv2
  obtain ⟨v2, hfin⟩ := bfs_invariant edges
    (fun queue visited lm =>
      (∀ m : String, queue.count m + (if m ∈ visited then 1 else 0) ≤ 1) ∧
      (∀ p ∈ lm, p.1 ∈ visited) ∧
      (∀ p ∈ lm, (0 : Int) ≤ p.2) ∧
      (∀ v ∈ queue, ∀ e ∈ edges, e.tgt = v → ∃ l, levelFind lm e.src = some l) ∧
      (∀ e ∈ edges, ∀ lv, levelFind lm e.tgt = some lv →
        ∃ lu, levelFind lm e.src = some lu ∧ lv = lu + 1))
    (fun n rest visited lm h => hstep n rest visited lm h)
    ((nodes.map (fun p => p.1)).filter (fun a => !(edges.any (fun e => e.tgt == a))))
    [] [] hinit
  exact hfin.2.2.2.2

/-! ## Supporting lemmas: the refinement loop -/

lemma refineGo_renders_le (outs : Nat → RenderOutcome) :
    ∀ rem att cw ch tr, (refineGo outs att rem cw ch tr).renders ≤ tr.length + rem := by
  intro rem
  induction rem with
  | zero =>
    intro att cw ch tr
    simp [refineGo]
  | succ r ih =>
    intro att cw ch tr
    cases hv : render_and_validate (outs att) with
    | true =>
      simp [refineGo, hv]
    | false =>
      simp only [refineGo, hv, if_false, Bool.false_eq_true]
      calc (refineGo outs (att + 1) r (cw + 40) (ch + 30) (tr ++ [(cw, ch, false)])).renders
          ≤ (tr ++ [(cw, ch, false)]).length + r := ih _ _ _ _
        _ = tr.length + (r + 1) := by simp [List.length_append]; omega

lemma refineGo_trace (outs : Nat → RenderOutcome) :
    ∀ rem att cw ch tr,
      (refineGo outs att rem cw ch tr).trace = tr ++ traceFrom outs att cw ch rem := by
  intro rem
  induction rem with
  | zero =>
    intro att cw ch tr
    simp [refineGo, traceFrom]
  | succ r ih =>
    intro att cw ch tr
    cases hv : render_and_validate (outs att) with
    | true => simp [refineGo, traceFrom, hv]
    | false =>
      simp only [refineGo, traceFrom, hv, if_false, Bool.false_eq_true, ih,
        List.append_assoc, List.singleton_append]

lemma refineGo_printedClean (outs : Nat → RenderOutcome) :
    ∀ rem att cw ch tr,
      (refineGo outs att rem cw ch tr).printedClean = true ↔
        ∃ k, k < rem ∧ render_and_validate (outs (att + k)) = true := by
  intro rem
  induction rem with
  | zero =>
    intro att cw ch tr
    simp [refineGo]
  | succ r ih =>
    intro att cw ch tr
    cases hv : render_and_validate (outs att) with
    | true =>
      simp only [refineGo, hv, if_true]
      constructor
      · intro _
        exact ⟨0, Nat.succ_pos r, by simpa using hv⟩
      · intro _
        trivial
    | false =>
      simp only [refineGo, hv, if_false, Bool.false_eq_true, ih]
      constructor
      · rintro ⟨k, hk, hr⟩
        exact ⟨k + 1, by omega, by
          have : att + 1 + k = att + (k + 1) := by omega
          rw [← this]; exact hr⟩
      · rintro ⟨k, hk, hr⟩
        cases k with
        | zero =>
          rw [Nat.add_zero] at hr
          rw [hr] at hv
          cases hv
        | succ j =>
          exact ⟨j, by omega, by
            have : att + 1 + j = att + (j + 1) := by omega
            rw [this]; exact hr⟩

lemma refineGo_retVal (outs : Nat → RenderOutcome) :
    ∀ rem att cw ch tr, (refineGo outs att rem cw ch tr).retVal = () := by
  intro rem att cw ch tr
  rfl

lemma refineGo_congr {outs1 outs2 : Nat → RenderOutcome}
    (h : ∀ i, render_and_validate (outs1 i) = render_and_validate (outs2 i)) :
    ∀ rem att cw ch tr,
      refineGo outs1 att rem cw ch tr = refineGo outs2 att rem cw ch tr := by
  intro rem
  induction rem with
  | zero =>
    intro att cw ch tr
    rfl
  | succ r ih =>
    intro att cw ch tr
    simp only [refineGo, h att, ih]

/-- The last trace entry of a finished run is clean only when the loop
stopped there, in which case the final spacing equals that attempt's
spacing. The premise says the accumulated prefix never ends in a clean
verdict, which holds of every reachable accumulator. -/
lemma refineGo_final_spacing (outs : Nat → RenderOutcome) :
    ∀ rem att cw ch tr,
      (∀ p, tr.getLast? = some p → p.2.2 = false) →
      ∀ e, (refineGo outs att rem cw ch tr).trace.getLast? = some e →
        e.2.2 = true →
        (refineGo outs att rem cw ch tr).cw = e.1 ∧
        (refineGo outs att rem cw ch tr).ch = e.2.1 := by
  intro rem
  induction rem with
  | zero =>
    intro att cw ch tr hpre e he htrue
    simp only [refineGo] at he ⊢
    rw [hpre e he] at htrue
    cases htrue
  | succ r ih =>
    intro att cw ch tr hpre e he htrue
    cases hv : render_and_validate (outs att) with
    | true =>
      simp only [refineGo, hv, if_true] at he ⊢
      rw [List.getLast?_concat] at he
      obtain rfl : (cw, ch, true) = e := by simpa using he
      exact ⟨rfl, rfl⟩
    | false =>
      simp only [refineGo, hv, if_false, Bool.false_eq_true] at he ⊢
      refine ih (att + 1) (cw + 40) (ch + 30) (tr ++ [(cw, ch, false)]) ?_ e he htrue
      intro p hp
      rw [List.getLast?_concat] at hp
      obtain rfl : (cw, ch, false) = p := by simpa using hp
      rfl

lemma traceFrom_get_zero (outs : Nat → RenderOutcome) (att : Nat) (cw ch : Int)
    (r : Nat) {a : Int × Int × Bool}
    (ha : (traceFrom outs att cw ch r).get? 0 = some a) :
    a.1 = cw ∧ a.2.1 = ch := by
  cases r with
  | zero => simp [traceFrom] at ha
  | succ j =>
    simp only [traceFrom, List.get?_cons_zero] at ha
    obtain rfl : (cw, ch, render_and_validate (outs att)) = a := by simpa using ha
    exact ⟨rfl, rfl⟩

/-- Consecutive trace entries: the earlier attempt was not clean and the
later one used spacing enlarged by exactly 40 and 30. -/
lemma traceFrom_adjacent (outs : Nat → RenderOutcome) :
    ∀ r att cw ch i a b,
      (traceFrom outs att cw ch r).get? i = some a →
      (traceFrom outs att cw ch r).get? (i + 1) = some b →
      b.1 = a.1 + 40 ∧ b.2.1 = a.2.1 + 30 ∧ a.2.2 = false := by
  intro r
  induction r with
  | zero =>
    intro att cw ch i a b ha hb
    simp [traceFrom] at ha
  | succ j ih =>
    intro att cw ch i a b ha hb
    cases hv : render_and_validate (outs att) with
    | true =>
      simp only [traceFrom, hv, if_true] at ha hb
      cases i with
      | zero => simp at hb
      | succ k => simp at ha
    | false =>
      simp only [traceFrom, hv, if_false, Bool.false_eq_true] at ha hb
      cases i with
      | zero =>
        rw [List.get?_cons_zero] at ha
        obtain rfl : (cw, ch, false) = a := by simpa using ha
        rw [List.get?_cons_succ] at hb
        have hz := traceFrom_get_zero outs (att + 1) (cw + 40) (ch + 30) j hb
        exact ⟨hz.1, hz.2, rfl⟩
      | succ k =>
        rw [List.get?_cons_succ] at ha hb
        exact ih (att + 1) (cw + 40) (ch + 30) k a b ha hb

/-! ## Supporting lemmas: the grid layout -/

lemma insertSortedStr_perm (x : String) (l : List String) :
    (insertSortedStr x l).Perm (x :: l) := by
  induction l with
  | nil => rfl
  | cons y ys ih =>
    rw [insertSortedStr]
    by_cases hc : charListLt x.data y.data = true
    · rw [if_pos hc]
    · rw [if_neg hc]
      exact (ih.cons y).trans (List.Perm.swap x y ys)

lemma sortStrs_perm (l : List String) : (sortStrs l).Perm l := by
  induction l with
  | nil => rfl
  | cons x xs ih =>
    exact (insertSortedStr_perm x (sortStrs xs)).trans (ih.cons x)

lemma insertSortedInt_perm (x : Int) (l : List Int) :
    (insertSortedInt x l).Perm (x :: l) := by
  induction l with
  | nil => rfl
  | cons y ys ih =>
    rw [insertSortedInt]
    by_cases hc : x ≤ y
    · rw [if_pos hc]
    · rw [if_neg hc]
      exact (ih.cons y).trans (List.Perm.swap x y ys)

lemma sortInts_perm (l : List Int) : (sortInts l).Perm l := by
  induction l with
  | nil => rfl
  | cons x xs ih =>
    exact (insertSortedInt_perm x (sortInts xs)).trans (ih.cons x)

lemma mem_rowOf {lm : List (String × Int)} {lvl : Int} {x : String} :
    x ∈ rowOf lm lvl ↔ (x, lvl) ∈ lm := by
  rw [rowOf, (sortStrs_perm _).mem_iff, List.mem_map]
  constructor
  · rintro ⟨p, hp, rfl⟩
    rw [List.mem_filter] at hp
    have : p.2 = lvl := beq_iff_eq.mp hp.2
    have hpp : p = (p.1, lvl) := Prod.ext rfl this
    exact hpp ▸ hp.1
  · intro hx
    exact ⟨(x, lvl), List.mem_filter.mpr ⟨hx, by simp⟩, rfl⟩

/-- Every entry of the by-level pass records a node of the level map placed
at its row index and level. -/
lemma mem_positionsOfLevels {cw ch : Int} {lm : List (String × Int)}
    {x : String} {p : Int × Int}
    (h : (x, p) ∈ positionsOfLevels cw ch lm) :
    ∃ (lvl : Int) (i : Nat), (rowOf lm lvl)[i]? = some x ∧ (x, lvl) ∈ lm ∧
      p = ((i : Int) * cw + 60, lvl * ch + 40) := by
  rw [positionsOfLevels, List.mem_flatMap] at h
  obtain ⟨lvl, _, hin⟩ := h
  rw [List.mem_map] at hin
  obtain ⟨q, hq, heq⟩ := hin
  obtain ⟨i, node⟩ := q
  have hx : node = x := congrArg Prod.fst heq
  subst hx
  have hp : p = ((i : Int) * cw + 60, lvl * ch + 40) :=
    (congrArg Prod.snd heq).symm
  have hget : (rowOf lm lvl)[i]? = some node :=
    List.mk_mem_enum_iff_getElem?.mp hq
  exact ⟨lvl, i, hget, mem_rowOf.mp (List.mem_iff_getElem?.mpr ⟨i, hget⟩), hp⟩

/-- Every node of the level map receives an entry in the by-level pass. -/
lemma positionsOfLevels_covers {cw ch : Int} {lm : List (String × Int)}
    {x : String} {lvl : Int} (h : (x, lvl) ∈ lm) :
    ∃ p, (x, p) ∈ positionsOfLevels cw ch lm := by
  have hrow : x ∈ rowOf lm lvl := mem_rowOf.mpr h
  obtain ⟨i, hi⟩ := List.mem_iff_getElem?.mp hrow
  refine ⟨((i : Int) * cw + 60, lvl * ch + 40), ?_⟩
  rw [positionsOfLevels, List.mem_flatMap]
  refine ⟨lvl, ?_, ?_⟩
  · rw [(sortInts_perm _).mem_iff, List.mem_dedup, List.mem_map]
    exact ⟨(x, lvl), h, rfl⟩
  · rw [List.mem_map]
    exact ⟨(i, x), List.mk_mem_enum_iff_getElem?.mpr hi, rfl⟩

lemma keys_nodup_val_unique {α : Type} :
    ∀ {d : List (String × α)}, (d.map Prod.fst).Nodup →
      ∀ {k : String} {v w : α}, (k, v) ∈ d → (k, w) ∈ d → v = w := by
  intro d
  induction d with
  | nil =>
    intro _ k v w hv
    exact absurd hv (List.not_mem_nil _)
  | cons p rest ih =>
    intro hnd k v w hv hw
    rw [List.map_cons, List.nodup_cons] at hnd
    rcases List.mem_cons.mp hv with h1 | h1
    · rcases List.mem_cons.mp hw with h2 | h2
      · rw [← h1] at h2
        exact (congrArg Prod.snd h2.symm)
      · exfalso
        apply hnd.1
        rw [List.mem_map]
        exact ⟨(k, w), h2, by rw [← h1]⟩
    · rcases List.mem_cons.mp hw with h2 | h2
      · exfalso
        apply hnd.1
        rw [List.mem_map]
        exact ⟨(k, v), h1, by rw [← h2]⟩
      · exact ih hnd.2 h1 h2

/-- Entries of `addFallback` are either entries of the by-level pass or
fallback entries whose key had no position yet. -/
lemma addFallback_mem {ch : Int} :
    ∀ (ns : List String) (pos : List (String × (Int × Int)))
      (xp : String × (Int × Int)), xp ∈ addFallback ch ns pos →
      xp ∈ pos ∨ pos.any (fun q => q.1 == xp.1) = false := by
  intro ns
  induction ns with
  | nil =>
    intro pos xp h
    exact Or.inl h
  | cons n ns ih =>
    intro pos xp h
    rw [addFallback, List.foldl_cons] at h
    by_cases hc : pos.any (fun q => q.1 == n) = true
    · rw [if_pos hc] at h
      exact ih pos xp h
    · rw [if_neg hc] at h
      rcases ih _ xp h with h1 | h1
      · rcases List.mem_append.mp h1 with h2 | h2
        · exact Or.inl h2
        · right
          have : xp.1 = n := by
            have := List.mem_singleton.mp h2
            rw [this]
          rw [this]
          exact Bool.not_eq_true _ ▸ hc
      · right
        rw [List.any_append] at h1
        exact (Bool.or_eq_false_iff.mp h1).1

/-- Closed form of the fallback pass (lines 64-66): the missing nodes are
appended in node order, the i-th of them at
`(60, (len(positions) + i + 1) * cell_height + 40)`. -/
lemma addFallback_eq (ch : Int) :
    ∀ (ns : List String) (pos : List (String × (Int × Int))), ns.Nodup →
      addFallback ch ns pos = pos ++
        fallbackRows ch (pos.length : Int)
          (ns.filter (fun n => !(pos.any (fun q => q.1 == n)))) := by
  intro ns
  induction ns with
  | nil =>
    intro pos _
    simp [addFallback, fallbackRows]
  | cons n ns ih =>
    intro pos hnd
    rw [List.nodup_cons] at hnd
    rw [addFallback, List.foldl_cons, List.filter_cons]
    by_cases hc : pos.any (fun q => q.1 == n) = true
    · rw [if_pos hc]
      have : (!pos.any (fun q => q.1 == n)) = false := by rw [hc]; rfl
      rw [this, if_neg (by exact Bool.false_ne_true)]
      exact ih pos hnd.2
    · rw [if_neg hc]
      have hcf : pos.any (fun q => q.1 == n) = false := Bool.not_eq_true _ ▸ hc
      have : (!pos.any (fun q => q.1 == n)) = true := by rw [hcf]; rfl
      rw [this, if_pos rfl]
      have step := ih (pos ++ [(n, (60, ((pos.length : Int) + 1) * ch + 40))]) hnd.2
      rw [addFallback] at step
      rw [step]
      have hfilter : ns.filter (fun m =>
          !((pos ++ [(n, (60, ((pos.length : Int) + 1) * ch + 40))]).any
            (fun q => q.1 == m))) =
          ns.filter (fun m => !(pos.any (fun q => q.1 == m))) := by
        apply List.filter_congr
        intro m hm
        have hnm : (n == m) = false := beq_eq_false_iff_ne.mpr
          (fun e => hnd.1 (e ▸ hm))
        rw [List.any_append]
        have : [(n, ((60 : Int), ((pos.length : Int) + 1) * ch + 40))].any
            (fun q => q.1 == m) = false := by
          simp [hnm]
        rw [this, Bool.or_false]
      rw [hfilter, List.append_assoc, List.singleton_append]
      have hlen : ((pos ++ [(n, ((60 : Int), ((pos.length : Int) + 1) * ch + 40))]).length : Int) =
          (pos.length : Int) + 1 := by
        rw [List.length_append, List.length_singleton]
        push_cast
        ring
      rw [hlen, fallbackRows]

/-- Every input node has a key in the final position map. -/
lemma addFallback_covers {ch : Int} :
    ∀ (ns : List String) (pos : List (String × (Int × Int))) (n : String),
      n ∈ ns → (addFallback ch ns pos).any (fun q => q.1 == n) = true := by
  have hmono : ∀ (ns : List String) (pos : List (String × (Int × Int))) (n : String),
      pos.any (fun q => q.1 == n) = true →
      (addFallback ch ns pos).any (fun q => q.1 == n) = true := by
    intro ns
    induction ns with
    | nil => intro pos n h; exact h
    | cons m ns ih =>
      intro pos n h
      rw [addFallback, List.foldl_cons]
      by_cases hc : pos.any (fun q => q.1 == m) = true
      · rw [if_pos hc]; exact ih pos n h
      · rw [if_neg hc]
        apply ih
        rw [List.any_append, h]
        rfl
  intro ns
  induction ns with
  | nil =>
    intro pos n h
    exact absurd h (List.not_mem_nil _)
  | cons m ns ih =>
    intro pos n h
    rw [addFallback, List.foldl_cons]
    rcases List.mem_cons.mp h with h1 | h1
    · subst h1
      by_cases hc : pos.any (fun q => q.1 == n) = true
      · rw [if_pos hc]
        exact hmono ns pos n hc
      · rw [if_neg hc]
        apply hmono
        rw [List.any_append]
        have : [(n, ((60 : Int), ((pos.length : Int) + 1) * ch + 40))].any
            (fun q => q.1 == n) = true := by simp
        rw [this, Bool.or_true]
    · by_cases hc : pos.any (fun q => q.1 == m) = true
      · rw [if_pos hc]; exact ih pos n h1
      · rw [if_neg hc]; exact ih _ n h1

/-! ## Supporting lemmas: the parser and the document builder -/

lemma takeWhile_all_isWord (l : List Char) :
    (l.takeWhile isWordChar).all isWordChar = true := by
  induction l with
  | nil => rfl
  | cons c cs ih =>
    rw [List.takeWhile_cons]
    cases hc : isWordChar c with
    | true => simp [hc, ih]
    | false => rfl

lemma tryArrowTgt_word {cs w : List Char} (h : tryArrowTgt cs = some w) :
    w ≠ [] ∧ w.all isWordChar = true := by
  rw [tryArrowTgt] at h
  split at h
  · split at h
    · exact absurd h (by simp)
    · obtain rfl : _ = w := Option.some.inj h
      refine ⟨?_, takeWhile_all_isWord _⟩
      intro hnil
      simp [hnil] at *
  · exact absurd h (by simp)

lemma scanBracket_word :
    ∀ (cs acc lbl w : List Char), scanBracket acc cs = some (lbl, w) →
      w ≠ [] ∧ w.all isWordChar = true := by
  intro cs
  induction cs with
  | nil =>
    intro acc lbl w h
    exact absurd h (by rw [scanBracket]; simp)
  | cons c rest ih =>
    intro acc lbl w h
    rw [scanBracket] at h
    split at h
    · split at h
      · next w1 harrow =>
        obtain ⟨h1, h2⟩ : acc.reverse = lbl ∧ w1 = w := by
          have := Option.some.inj h
          exact ⟨congrArg Prod.fst this, congrArg Prod.snd this⟩
        exact h2 ▸ tryArrowTgt_word harrow
      · exact ih _ _ _ h
    · exact ih _ _ _ h

lemma matchEdgePart_word {s : String} {b : Option String} {t : String}
    (h : matchEdgePart s = some (b, t)) :
    t ≠ "" ∧ t.data.all isWordChar = true := by
  rw [matchEdgePart] at h
  split at h
  · next q hq =>
    obtain rfl : String.mk q.2 = t := congrArg Prod.snd (Option.some.inj h)
    have hw : q.2 ≠ [] ∧ q.2.all isWordChar = true := by
      revert hq
      split
      · next rest heq =>
        intro hq
        exact scanBracket_word rest [] q.1 q.2 (by
          cases q
          simpa using hq)
      · intro hq
        cases hq
    refine ⟨fun he => hw.1 (congrArg String.data he), hw.2⟩
  · split at h
    · exact absurd h (by simp)
    · next hne =>
      obtain rfl : String.mk (s.data.takeWhile isWordChar) = t :=
        congrArg Prod.snd (Option.some.inj h)
      refine ⟨fun he => ?_, takeWhile_all_isWord _⟩
      have : s.data.takeWhile isWordChar = [] := congrArg String.data he
      rw [List.isEmpty_iff] at hne
      exact hne this

lemma parseLine_edges_ok {st st2 : ParseResult} {line : String}
    (h : parseLine st line = some st2) (hst : ∀ e ∈ st.edges, edgeTgtOk e) :
    ∀ e ∈ st2.edges, edgeTgtOk e := by
  rw [parseLine] at h
  split at h
  · obtain rfl : st = st2 := Option.some.inj h
    exact hst
  · split at h
    · next nodeId desc rest heq =>
      obtain rfl : _ = st2 := Option.some.inj h
      intro e he
      simp only [] at he
      rcases List.mem_append.mp he with h1 | h1
      · exact hst e h1
      · rw [List.mem_filterMap] at h1
        obtain ⟨p, _, hp⟩ := h1
        cases hm : matchEdgePart (String.mk p) with
        | none => rw [hm] at hp; cases hp
        | some q =>
          rw [hm] at hp
          obtain rfl : Edge.mk (String.mk nodeId) q.2 q.1 = e := Option.some.inj hp
          have := matchEdgePart_word (t := q.2) (b := q.1) (by
            cases q
            simpa using hm)
          exact this
    · cases h

lemma parse_edges_ok :
    ∀ (lines : List String) (st res : ParseResult),
      List.foldlM parseLine st lines = some res →
      (∀ e ∈ st.edges, edgeTgtOk e) → ∀ e ∈ res.edges, edgeTgtOk e := by
  intro lines
  induction lines with
  | nil =>
    intro st res h hst
    obtain rfl : st = res := Option.some.inj h
    exact hst
  | cons l ls ih =>
    intro st res h hst
    rw [List.foldlM_cons] at h
    cases hs : parseLine st l with
    | none => rw [hs] at h; cases h
    | some st1 =>
      rw [hs] at h
      exact ih st1 res h (parseLine_edges_ok hs hst)

/-- A record line with at least two non-empty fields (or a blank or comment
line) never makes the parse fail, whatever its edge fields hold. -/
lemma parseLine_isSome {st : ParseResult} {line : String}
    (h : trimChars line.data = [] ∨ (trimChars line.data).head? = some '#' ∨
      2 ≤ (((splitSemi (trimChars line.data)).map trimChars).filter
        (fun p => p ≠ [])).length) :
    (parseLine st line).isSome := by
  rw [parseLine]
  split
  · rfl
  · next hcond =>
    have hcond1 : ¬ trimChars line.data = [] := fun hx => hcond (by simp [hx])
    have hcond2 : ¬ (trimChars line.data).head? = some '#' := fun hx =>
      hcond (by simp [hx])
    rcases h with h1 | h1 | h1
    · exact absurd h1 hcond1
    · exact absurd h1 hcond2
    · revert h1
      split
      · intro _
        rfl
      · next hmatch =>
        intro h1
        rcases hl : ((splitSemi (trimChars line.data)).map trimChars).filter
            (fun p => p ≠ []) with _ | ⟨a, _ | ⟨c, tl⟩⟩
        · rw [hl] at h1; simp at h1
        · rw [hl] at h1; simp at h1
        · exact absurd hl (hmatch a c tl)

lemma boxesOf_ids :
    ∀ (nodes : List (String × String)) (pos : List (String × (Int × Int)))
      (bs : List MxBox), boxesOf pos nodes = some bs →
      bs.map (fun b => b.id) = nodes.map Prod.fst := by
  intro nodes
  induction nodes with
  | nil =>
    intro pos bs h
    obtain rfl : ([] : List MxBox) = bs := Option.some.inj h
    rfl
  | cons p rest ih =>
    intro pos bs h
    obtain ⟨nid, desc⟩ := p
    rw [boxesOf] at h
    cases hp : posFind pos nid with
    | none => rw [hp] at h; cases h
    | some xy =>
      rw [hp] at h
      cases hr : boxesOf pos rest with
      | none => rw [hr] at h; cases h
      | some bs1 =>
        rw [hr] at h
        obtain rfl : _ = bs := Option.some.inj h
        rw [List.map_cons, List.map_cons, ih pos bs1 hr]

lemma connsOf_exists :
    ∀ (edges : List Edge) (i : Nat) (e : Edge), e ∈ edges →
      ∃ c ∈ connsOf i edges, c.source = e.src ∧ c.target = e.tgt ∧
        c.label = labelOf e.branch := by
  intro edges
  induction edges with
  | nil =>
    intro i e h
    exact absurd h (List.not_mem_nil _)
  | cons e1 rest ih =>
    intro i e h
    rcases List.mem_cons.mp h with h1 | h1
    · subst h1
      exact ⟨_, List.mem_cons_self _ _, rfl, rfl, rfl⟩
    · obtain ⟨c, hc, hprops⟩ := ih (i + 1) e h1
      exact ⟨c, List.mem_cons_of_mem _ hc, hprops⟩

lemma connsOf_sources_targets :
    ∀ (edges : List Edge) (i : Nat) (c : MxConnector), c ∈ connsOf i edges →
      ∃ e ∈ edges, c.source = e.src ∧ c.target = e.tgt := by
  intro edges
  induction edges with
  | nil =>
    intro i c h
    exact absurd h (List.not_mem_nil _)
  | cons e1 rest ih =>
    intro i c h
    rcases List.mem_cons.mp h with h1 | h1
    · subst h1
      exact ⟨e1, List.mem_cons_self _ _, rfl, rfl⟩
    · obtain ⟨e, he, hprops⟩ := ih (i + 1) c h1
      exact ⟨e, List.mem_cons_of_mem _ he, hprops⟩

/-! ## Concrete evaluations of the level assignment

`bfs` is defined by well-founded recursion, so concrete runs are evaluated
once here by simp and reused below. -/

lemma levelMap_eval_pipeline :
    levelMapOf [("A", "Start"), ("B", "End")] [Edge.mk "A" "B" none] =
      [("A", 0), ("B", 1)] := by
  simp [levelMapOf, bfs, parentsList, lookupLevel, dictInsert, appendsOf, List.filter]

lemma levelMap_eval_chain :
    levelMapOf [("A", "a"), ("B", "b")] [Edge.mk "A" "B" none] =
      [("A", 0), ("B", 1)] := by
  simp [levelMapOf, bfs, parentsList, lookupLevel, dictInsert, appendsOf, List.filter]

lemma levelMap_eval_pair :
    levelMapOf [("A", "x"), ("B", "y")] [] = [("A", 0), ("B", 0)] := by
  simp [levelMapOf, bfs, parentsList, lookupLevel, dictInsert, appendsOf, List.filter]

lemma levelMap_eval_diamond :
    levelMapOf [("A", "a"), ("B", "b"), ("C", "c"), ("D", "d")]
      [Edge.mk "A" "B" none, Edge.mk "B" "C" none, Edge.mk "C" "D" none,
        Edge.mk "A" "D" none] =
      [("A", 0), ("B", 1), ("D", 1), ("C", 2)] := by
  simp [levelMapOf, bfs, parentsList, lookupLevel, dictInsert, appendsOf, List.filter]

lemma levelMap_eval_cycle :
    levelMapOf [("A", "Start"), ("B", "x"), ("C", "y")]
      [Edge.mk "B" "C" none, Edge.mk "C" "B" none] = [("A", 0)] := by
  simp [levelMapOf, bfs, parentsList, lookupLevel, dictInsert, appendsOf, List.filter]

/-! ## The claims -/

/-- Claim C1, counterexample: the BFS level assignment is not a topological
layering. On the acyclic graph A→B→C→D with the extra edge A→D, the node D
is dequeued (level 1, from the already-leveled parent A) before its parent C
is leveled (level 2), so the edge C→D has level(D) = 1, not greater than
level(C) = 2. -/
theorem claimC1_counterexample :
    isAcyclic [Edge.mk "A" "B" none, Edge.mk "B" "C" none, Edge.mk "C" "D" none,
      Edge.mk "A" "D" none] = true ∧
    Edge.mk "C" "D" none ∈ [Edge.mk "A" "B" none, Edge.mk "B" "C" none,
      Edge.mk "C" "D" none, Edge.mk "A" "D" none] ∧
    lookupLevel (levelMapOf [("A", "a"), ("B", "b"), ("C", "c"), ("D", "d")]
      [Edge.mk "A" "B" none, Edge.mk "B" "C" none, Edge.mk "C" "D" none,
        Edge.mk "A" "D" none]) "C" = 2 ∧
    lookupLevel (levelMapOf [("A", "a"), ("B", "b"), ("C", "c"), ("D", "d")]
      [Edge.mk "A" "B" none, Edge.mk "B" "C" none, Edge.mk "C" "D" none,
        Edge.mk "A" "D" none]) "D" = 1 ∧
    ¬ ((1 : Int) > 2) := by
  have hlm := levelMap_eval_diamond
  refine ⟨by decide, by decide, ?_, ?_, by decide⟩
  · rw [hlm]
    decide
  · rw [hlm]
    decide

/-- Claim C1, amended: every root node (a node of the input with no incoming
edge) is assigned level 0, for every input. The edge property
level(v) > level(u) holds for every edge when each node has at most one
incoming edge (forest-shaped inputs), but not for all acyclic graphs: a node
with several predecessors can be dequeued and leveled before a
later-leveled predecessor. -/
theorem claimC1_amended :
    ∀ (nodes : List (String × String)) (edges : List Edge),
      (∀ r ∈ nodes.map Prod.fst, (∀ e ∈ edges, e.tgt ≠ r) →
        levelFind (levelMapOf nodes edges) r = some 0) ∧
      ((nodes.map Prod.fst).Nodup →
        (∀ t : String, edges.countP (fun e => e.tgt == t) ≤ 1) →
        ∀ e ∈ edges, ∀ lv, levelFind (levelMapOf nodes edges) e.tgt = some lv →
          ∃ lu, levelFind (levelMapOf nodes edges) e.src = some lu ∧ lu < lv) := by
  intro nodes edges
  constructor
  · intro r hr hroot
    exact levelMapOf_root hr hroot
  · intro hnd hforest e he lv hlv
    obtain ⟨lu, hlu, heq⟩ := levelMapOf_forest hnd hforest e he lv hlv
    exact ⟨lu, hlu, by omega⟩

/-- Witness for the amended claim C1 on the two-node chain A→B: the root A
is at level 0, and the level of the edge source A is below the level 1 of
the target B. -/
theorem claimC1_witness :
    levelFind (levelMapOf [("A", "a"), ("B", "b")] [Edge.mk "A" "B" none]) "A" =
      some 0 ∧
    ∃ lu, levelFind (levelMapOf [("A", "a"), ("B", "b")]
      [Edge.mk "A" "B" none]) "A" = some lu ∧ lu < 1 := by
  have h := claimC1_amended [("A", "a"), ("B", "b")] [Edge.mk "A" "B" none]
  constructor
  · exact h.1 "A" (by decide) (by decide)
  · refine h.2 (by decide) ?_ (Edge.mk "A" "B" none) (by decide) 1
      (by rw [levelMap_eval_chain]; decide)
    intro t
    rw [List.countP_cons, List.countP_nil]
    cases (Edge.mk "A" "B" none).tgt == t <;> simp

/-- Claim C2, counterexample: a missing external tool does not abort the
loop and is not surfaced with a distinct code. `render_and_validate` returns
`False` for `FileNotFoundError`, the same value as for a rendered-but-not-
clean image, and a run in which the tool is never found performs all five
attempts instead of one. -/
theorem claimC2_counterexample :
    (refine_until_clean 250 120 5 (fun _ => RenderOutcome.fileNotFound)).renders = 5 ∧
    render_and_validate RenderOutcome.fileNotFound =
      render_and_validate (RenderOutcome.rendered (some 100)) := by
  decide

/-- Claim C2, amended: the tool-not-found failure is caught, reported only
by a printed diagnostic, and `render_and_validate` returns `False` for it —
indistinguishable from a not-clean render — so the refinement loop retries
with enlarged spacing up to the attempt budget instead of aborting; the two
runs are identical. -/
theorem claimC2_amended :
    render_and_validate RenderOutcome.fileNotFound = false ∧
    ∀ (cw ch : Int) (maxAttempts : Nat),
      refine_until_clean cw ch maxAttempts (fun _ => RenderOutcome.fileNotFound) =
        refine_until_clean cw ch maxAttempts
          (fun _ => RenderOutcome.rendered (some 100)) := by
  refine ⟨rfl, ?_⟩
  intro cw ch ma
  rw [refine_until_clean, refine_until_clean]
  exact @refineGo_congr (fun _ => RenderOutcome.fileNotFound)
    (fun _ => RenderOutcome.rendered (some 100)) (fun i => rfl) ma 0 cw ch []

/-- Claim C3, counterexample: success and exhaustion are not distinguishable
in the return value of `refine_until_clean` — the function returns `None`
(unit) on both paths. A run that is clean at once and a run that exhausts
all five attempts have equal return values, though only the first prints the
success message. The function never sets an exit status (no `sys.exit` in
the source). -/
theorem claimC3_counterexample :
    (refine_until_clean 250 120 5 (fun _ => RenderOutcome.rendered none)).retVal =
      (refine_until_clean 250 120 5
        (fun _ => RenderOutcome.rendered (some 100))).retVal ∧
    (refine_until_clean 250 120 5
      (fun _ => RenderOutcome.rendered none)).printedClean = true ∧
    (refine_until_clean 250 120 5
      (fun _ => RenderOutcome.rendered (some 100))).printedClean = false := by
  decide

/-- Claim C3, amended: `refine_until_clean` returns `None` on every path;
success is distinguishable from exhaustion only in the printed output — the
success message is printed exactly when some attempt within the budget gets
a clean verdict. -/
theorem claimC3_amended :
    ∀ (cw ch : Int) (maxAttempts : Nat) (outs : Nat → RenderOutcome),
      (refine_until_clean cw ch maxAttempts outs).retVal = () ∧
      ((refine_until_clean cw ch maxAttempts outs).printedClean = true ↔
        ∃ k, k < maxAttempts ∧ render_and_validate (outs k) = true) := by
  intro cw ch ma outs
  refine ⟨rfl, ?_⟩
  have h := refineGo_printedClean outs ma 0 cw ch []
  simpa [refine_until_clean] using h

/-- Claim C4, counterexample: with one root A and an entryless cycle B↔C,
the single occupied row is level 0, yet the unreached node B is placed at
y = (1+1)·120+40 = 280, two rows beyond the last occupied row, not at the
claimed one-beyond position y = (0+1)·120+40 = 160 (and C lands a further
row down). The x = 60 part holds. -/
theorem claimC4_counterexample :
    levelMapOf [("A", "Start"), ("B", "x"), ("C", "y")]
      [Edge.mk "B" "C" none, Edge.mk "C" "B" none] = [("A", 0)] ∧
    assign_clustered_grid_positions 250 120 [("A", "Start"), ("B", "x"), ("C", "y")]
      [Edge.mk "B" "C" none, Edge.mk "C" "B" none] =
      [("A", (60, 40)), ("B", (60, 280)), ("C", (60, 400))] ∧
    ((60 : Int), (280 : Int)) ≠ ((60 : Int), (0 + 1) * 120 + 40) := by
  have hlm := levelMap_eval_cycle
  refine ⟨hlm, ?_, by decide⟩
  rw [assign_clustered_grid_positions, hlm]
  decide

/-- Claim C4, amended: every node missed by the traversal still receives a
position, at the left margin x = 60, and the i-th such node (in node order)
is placed at y = (p + i + 1)·cellHeight + 40 where p is the number of
entries already in the position map — strictly below every occupied row, but
in general more than one row beyond the last occupied one. -/
theorem claimC4_amended :
    ∀ (cw ch : Int) (nodes : List (String × String)) (edges : List Edge),
      (nodes.map Prod.fst).Nodup →
      (∀ n ∈ nodes.map Prod.fst,
        (assign_clustered_grid_positions cw ch nodes edges).any
          (fun q => q.1 == n) = true) ∧
      assign_clustered_grid_positions cw ch nodes edges =
        positionsOfLevels cw ch (levelMapOf nodes edges) ++
          fallbackRows ch
            (((positionsOfLevels cw ch (levelMapOf nodes edges)).length : Int))
            ((nodes.map Prod.fst).filter (fun n =>
              !((positionsOfLevels cw ch (levelMapOf nodes edges)).any
                (fun q => q.1 == n)))) := by
  intro cw ch nodes edges hnd
  constructor
  · intro n hn
    rw [assign_clustered_grid_positions]
    exact addFallback_covers _ _ n (by simpa using hn)
  · rw [assign_clustered_grid_positions]
    have : nodes.map (fun p => p.1) = nodes.map Prod.fst := rfl
    rw [this]
    exact addFallback_eq ch (nodes.map Prod.fst) _ hnd

/-- Witness for the amended claim C4 on the root-plus-cycle input: B and C
are covered and the position map equals the by-level pass plus the fallback
rows. -/
theorem claimC4_witness :
    (assign_clustered_grid_positions 250 120 [("A", "Start"), ("B", "x"), ("C", "y")]
      [Edge.mk "B" "C" none, Edge.mk "C" "B" none]).any
        (fun q => q.1 == "B") = true ∧
    assign_clustered_grid_positions 250 120 [("A", "Start"), ("B", "x"), ("C", "y")]
      [Edge.mk "B" "C" none, Edge.mk "C" "B" none] =
      positionsOfLevels 250 120 (levelMapOf [("A", "Start"), ("B", "x"), ("C", "y")]
        [Edge.mk "B" "C" none, Edge.mk "C" "B" none]) ++
        fallbackRows 120
          (((positionsOfLevels 250 120 (levelMapOf
            [("A", "Start"), ("B", "x"), ("C", "y")]
            [Edge.mk "B" "C" none, Edge.mk "C" "B" none])).length : Int))
          (([("A", "Start"), ("B", "x"), ("C", "y")].map Prod.fst).filter (fun n =>
            !((positionsOfLevels 250 120 (levelMapOf
              [("A", "Start"), ("B", "x"), ("C", "y")]
              [Edge.mk "B" "C" none, Edge.mk "C" "B" none])).any
                (fun q => q.1 == n)))) := by
  have h := claimC4_amended 250 120 [("A", "Start"), ("B", "x"), ("C", "y")]
    [Edge.mk "B" "C" none, Edge.mk "C" "B" none] (by decide)
  exact ⟨h.1 "B" (by decide), h.2⟩

/-- Claim C5: on the two-record input `A;Start;B` and `B;End;` the parser
produces exactly the two nodes A and B, one unlabeled edge A→B, the level
map assigns A level 0 and B level 1, and the default 250×120 grid places
A at (60, 40) and B at (60, 160). -/
theorem claimC5 :
    parse_flow_file ["A;Start;B", "B;End;"] =
      some { nodes := [("A", "Start"), ("B", "End")],
             edges := [Edge.mk "A" "B" none],
             children := [("A", ["B"])] } ∧
    levelMapOf [("A", "Start"), ("B", "End")] [Edge.mk "A" "B" none] =
      [("A", 0), ("B", 1)] ∧
    assign_clustered_grid_positions 250 120 [("A", "Start"), ("B", "End")]
      [Edge.mk "A" "B" none] = [("A", (60, 40)), ("B", (60, 160))] := by
  have hlm := levelMap_eval_pipeline
  refine ⟨by decide, hlm, ?_⟩
  rw [assign_clustered_grid_positions, hlm]
  decide

/-- Claim C6: the refinement loop performs at most `max_attempts` render
invocations, for every input stream of render outcomes, every spacing and
every attempt budget, and always terminates (it is a total function here,
with its render count bounded by the budget). -/
theorem claimC6 :
    ∀ (cw ch : Int) (maxAttempts : Nat) (outs : Nat → RenderOutcome),
      (refine_until_clean cw ch maxAttempts outs).renders ≤ maxAttempts := by
  intro cw ch ma outs
  have h := refineGo_renders_le outs ma 0 cw ch []
  simpa [refine_until_clean] using h

/-- Claim C7: starting from the defaults 250×120, the first attempt uses
exactly those values; every attempt that is followed by another one failed
and the next attempt's cell sizes are larger by exactly 40 and 30 (hence
strictly increasing); and when the final attempt is clean the loop stops
with the spacing fields unchanged from that attempt. -/
theorem claimC7 :
    ∀ (maxAttempts : Nat) (outs : Nat → RenderOutcome),
      (∀ a : Int × Int × Bool,
        (refine_until_clean 250 120 maxAttempts outs).trace.get? 0 = some a →
        a.1 = 250 ∧ a.2.1 = 120) ∧
      (∀ (i : Nat) (a b : Int × Int × Bool),
        (refine_until_clean 250 120 maxAttempts outs).trace.get? i = some a →
        (refine_until_clean 250 120 maxAttempts outs).trace.get? (i + 1) = some b →
        b.1 = a.1 + 40 ∧ b.2.1 = a.2.1 + 30 ∧ a.2.2 = false ∧
          a.1 < b.1 ∧ a.2.1 < b.2.1) ∧
      (∀ e : Int × Int × Bool,
        (refine_until_clean 250 120 maxAttempts outs).trace.getLast? = some e →
        e.2.2 = true →
        (refine_until_clean 250 120 maxAttempts outs).cw = e.1 ∧
        (refine_until_clean 250 120 maxAttempts outs).ch = e.2.1) := by
  intro ma outs
  have htr : (refine_until_clean 250 120 ma outs).trace =
      traceFrom outs 0 250 120 ma := by
    rw [refine_until_clean, refineGo_trace]
    exact List.nil_append _
  refine ⟨?_, ?_, ?_⟩
  · intro a ha
    rw [htr] at ha
    exact traceFrom_get_zero outs 0 250 120 ma ha
  · intro i a b ha hb
    rw [htr] at ha hb
    obtain ⟨h1, h2, h3⟩ := traceFrom_adjacent outs ma 0 250 120 i a b ha hb
    exact ⟨h1, h2, h3, by omega, by omega⟩
  · intro e he htrue
    exact refineGo_final_spacing outs ma 0 250 120 []
      (fun p hp => absurd hp (by simp)) e he htrue

/-- Witness for claim C7: with the renderer never clean and a budget of 3,
attempt 1 runs at (250, 120) and attempt 2 at (290, 150) = +40/+30. -/
theorem claimC7_witness :
    (((290 : Int), (150 : Int), false) : Int × Int × Bool).1 =
      (((250 : Int), (120 : Int), false) : Int × Int × Bool).1 + 40 ∧
    (((290 : Int), (150 : Int), false) : Int × Int × Bool).2.1 =
      (((250 : Int), (120 : Int), false) : Int × Int × Bool).2.1 + 30 ∧
    (((250 : Int), (120 : Int), false) : Int × Int × Bool).2.2 = false ∧
    (((250 : Int), (120 : Int), false) : Int × Int × Bool).1 <
      (((290 : Int), (150 : Int), false) : Int × Int × Bool).1 ∧
    (((250 : Int), (120 : Int), false) : Int × Int × Bool).2.1 <
      (((290 : Int), (150 : Int), false) : Int × Int × Bool).2.1 :=
  (claimC7 3 (fun _ => RenderOutcome.rendered (some 100))).2.1 0
    ((250 : Int), (120 : Int), false) ((290 : Int), (150 : Int), false)
    (by decide) (by decide)

/-- Claim C8: in every position map of the grid planner (with positive cell
sizes, as in every run of the program), two distinct nodes assigned the same
level get distinct positions, and nodes assigned different levels have
y-coordinates at least one full cell height apart. -/
theorem claimC8 :
    ∀ (cw ch : Int), 0 < cw → 0 < ch →
    ∀ (nodes : List (String × String)) (edges : List Edge)
      (a b : String) (la lb : Int) (pa pb : Int × Int),
      (a, la) ∈ levelMapOf nodes edges → (b, lb) ∈ levelMapOf nodes edges →
      (a, pa) ∈ assign_clustered_grid_positions cw ch nodes edges →
      (b, pb) ∈ assign_clustered_grid_positions cw ch nodes edges →
      (a ≠ b → la = lb → pa ≠ pb) ∧ (la ≠ lb → ch ≤ |pa.2 - pb.2|) := by
  intro cw ch hcw hch nodes edges a b la lb pa pb hla hlb hpa hpb
  have hnd := levelMapOf_keys_nodup nodes edges
  have lift : ∀ (x : String) (lx : Int) (px : Int × Int),
      (x, lx) ∈ levelMapOf nodes edges →
      (x, px) ∈ assign_clustered_grid_positions cw ch nodes edges →
      ∃ i : Nat, (rowOf (levelMapOf nodes edges) lx)[i]? = some x ∧
        px = ((i : Int) * cw + 60, lx * ch + 40) := by
    intro x lx px hlx hpx
    rw [assign_clustered_grid_positions] at hpx
    rcases addFallback_mem _ _ _ hpx with h1 | h1
    · obtain ⟨lvl, i, hget, hmem, hpeq⟩ := mem_positionsOfLevels h1
      have hl : lvl = lx := keys_nodup_val_unique hnd hmem hlx
      subst hl
      exact ⟨i, hget, hpeq⟩
    · exfalso
      obtain ⟨p0, hp0⟩ := @positionsOfLevels_covers cw ch _ _ _ hlx
      have h2 : (positionsOfLevels cw ch (levelMapOf nodes edges)).any
          (fun q => q.1 == (x, px).1) = true :=
        List.any_eq_true.mpr ⟨(x, p0), hp0, by simp⟩
      rw [h1] at h2
      cases h2
  obtain ⟨ia, hgeta, hpaeq⟩ := lift a la pa hla hpa
  obtain ⟨ib, hgetb, hpbeq⟩ := lift b lb pb hlb hpb
  constructor
  · intro hab hlalb
    subst hlalb
    intro hcontra
    rw [hpaeq, hpbeq] at hcontra
    have hx : (ia : Int) * cw + 60 = (ib : Int) * cw + 60 :=
      congrArg Prod.fst hcontra
    have hii : (ia : Int) = (ib : Int) := by
      have h2 : (ia : Int) * cw = (ib : Int) * cw := by omega
      exact mul_right_cancel₀ (ne_of_gt hcw) h2
    have hii2 : ia = ib := by exact_mod_cast hii
    rw [hii2] at hgeta
    rw [hgeta] at hgetb
    exact hab (Option.some.inj hgetb)
  · intro hne
    rw [hpaeq, hpbeq]
    dsimp only
    have h1 : la * ch + 40 - (lb * ch + 40) = (la - lb) * ch := by ring
    rw [h1, abs_mul, abs_of_pos hch]
    have h2 : (1 : Int) ≤ |la - lb| := Int.one_le_abs (sub_ne_zero.mpr hne)
    calc ch = 1 * ch := (one_mul ch).symm
      _ ≤ |la - lb| * ch := mul_le_mul_of_nonneg_right h2 (le_of_lt hch)


/-- Witness for claim C8: nodes A and B share level 0 in the two-root input
and receive the distinct positions (60, 40) and (310, 40). -/
theorem claimC8_witness :
    (((60 : Int), (40 : Int)) : Int × Int) ≠ (((310 : Int), (40 : Int)) : Int × Int) := by
  have hlm := levelMap_eval_pair
  exact (claimC8 250 120 (by decide) (by decide) [("A", "x"), ("B", "y")] []
    "A" "B" 0 0 ((60 : Int), (40 : Int)) ((310 : Int), (40 : Int))
    (by rw [hlm]; decide) (by rw [hlm]; decide)
    (by rw [assign_clustered_grid_positions, hlm]; decide)
    (by rw [assign_clustered_grid_positions, hlm]; decide)).1
    (by decide) rfl

/-- Claim C9: box cells are emitted exactly for the ids defined by records
(the node dict), so an edge whose target id never appears as a record id
yields a connector referencing that target while no box with that id exists
in the document — the connector dangles. -/
theorem claimC9 :
    ∀ (nodes : List (String × String)) (edges : List Edge)
      (positions : List (String × (Int × Int))) (doc : DrawioDoc),
      build_drawio_xml nodes edges positions = some doc →
      doc.boxes.map (fun bx => bx.id) = nodes.map Prod.fst ∧
      ∀ e ∈ edges, e.tgt ∉ nodes.map Prod.fst →
        (∃ c ∈ doc.conns, c.source = e.src ∧ c.target = e.tgt) ∧
        ∀ bx ∈ doc.boxes, bx.id ≠ e.tgt := by
  intro nodes edges positions doc h
  rw [build_drawio_xml] at h
  cases hb : boxesOf positions nodes with
  | none =>
    rw [hb] at h
    cases h
  | some bs =>
    rw [hb] at h
    simp only [Option.map_some'] at h
    obtain rfl : DrawioDoc.mk bs (connsOf 1 edges) = doc := Option.some.inj h
    have hids := boxesOf_ids nodes positions bs hb
    refine ⟨hids, ?_⟩
    intro e he htgt
    constructor
    · obtain ⟨c, hc, hsrc, htgtc, _⟩ := connsOf_exists edges 1 e he
      exact ⟨c, hc, hsrc, htgtc⟩
    · intro bx hbx heq
      apply htgt
      rw [← hids, List.mem_map]
      exact ⟨bx, hbx, heq⟩

/-- Witness for claim C9: the single record A with the dangling edge A→B
yields a document with one box (id A) and one connector e1 targeting B, and
no box with id B. -/
theorem claimC9_witness :
    (∃ c ∈ (DrawioDoc.mk
        [MxBox.mk "A" "Start" "rounded=1;whiteSpace=wrap;html=1;" 60 40]
        [MxConnector.mk "e1" "A" "B" none]).conns,
      c.source = "A" ∧ c.target = "B") ∧
    ∀ bx ∈ (DrawioDoc.mk
        [MxBox.mk "A" "Start" "rounded=1;whiteSpace=wrap;html=1;" 60 40]
        [MxConnector.mk "e1" "A" "B" none]).boxes, bx.id ≠ "B" :=
  (claimC9 [("A", "Start")] [Edge.mk "A" "B" none] [("A", (60, 40))]
    (DrawioDoc.mk [MxBox.mk "A" "Start" "rounded=1;whiteSpace=wrap;html=1;" 60 40]
      [MxConnector.mk "e1" "A" "B" none])
    (by decide)).2 (Edge.mk "A" "B" none) (by decide) (by decide)

/-- Claim C10: an edge field that does not match the optional bracketed
label, arrow and at-least-one word character is skipped without an error (a
record with two or more non-empty fields always parses, whatever its edge
fields hold), and a matched target id is the maximal word-character run, so
every parsed edge target is a nonempty string of word characters. -/
theorem claimC10 :
    (∀ (st : ParseResult) (line : String),
      (trimChars line.data = [] ∨ (trimChars line.data).head? = some '#' ∨
        2 ≤ (((splitSemi (trimChars line.data)).map trimChars).filter
          (fun p => p ≠ [])).length) →
      (parseLine st line).isSome) ∧
    (∀ (lines : List String) (res : ParseResult),
      parse_flow_file lines = some res →
      ∀ e ∈ res.edges, e.tgt ≠ "" ∧ e.tgt.data.all isWordChar = true) := by
  constructor
  · intro st line h
    exact parseLine_isSome h
  · intro lines res h e he
    exact parse_edges_ok lines _ res h
      (fun e2 he2 => absurd he2 (List.not_mem_nil e2)) e he

/-- Witness for claim C10: the record `A;Start;x[1]->B;-bad` parses (the
field `-bad` is skipped silently), and the field `x[1]->B` yields the edge
target `x`, truncated at the bracket: a nonempty all-word-character id. -/
theorem claimC10_witness :
    (parseLine (ParseResult.mk [] [] []) "A;Start;-bad").isSome ∧
    ((Edge.mk "A" "x" none).tgt ≠ "" ∧
      (Edge.mk "A" "x" none).tgt.data.all isWordChar = true) :=
  ⟨claimC10.1 (ParseResult.mk [] [] []) "A;Start;-bad" (by decide),
   claimC10.2 ["A;Start;x[1]->B;-bad"]
     (ParseResult.mk [("A", "Start")] [Edge.mk "A" "x" none] [("A", ["x"])])
     (by decide) (Edge.mk "A" "x" none) (by decide)⟩

end FlowDiagram
